import Mathlib

/-!
# Verification of the `inflections` case-conversion library

This file is a shallow embedding of the library's two source files
(`src/case.rs` and `src/lib.rs`) into Lean 4, together with theorems
settling the specification's claims about them.

Strings are modelled as `List Char`.  The Unicode case mapping used by the
source through `char::to_lowercase` / `char::to_uppercase` is modelled by
its ASCII fragment (Lean core's `Char.toLower` / `Char.toUpper`, which
shift exactly the basic latin letters), wrapped in singleton lists so the
one-to-many shape of the source's `flat_map` pipeline is kept.  Likewise
`char::is_lowercase` / `char::is_uppercase` are modelled by their ASCII
fragments `Char.isLower` / `Char.isUpper`.
-/

namespace Case

/-- Model of `char::to_lowercase` (ASCII fragment), as used via
`.flat_map(char::to_lowercase)` in `case.rs`.  The full Unicode mapping's
one-to-many expansions (e.g. U+0130 lowercasing to two code points) lie
outside this fragment: every character outside ASCII is mapped to itself. -/
def char_to_lowercase (c : Char) : List Char := [c.toLower]

/-- Model of `char::to_uppercase` (ASCII fragment), as used via
`.flat_map(char::to_uppercase)` and `curr.to_uppercase()` in `case.rs`.  The
full Unicode mapping's one-to-many expansions (e.g. `'ß'` uppercasing to
`"SS"`) lie outside this fragment: every character outside ASCII is mapped to
itself, so theorems quantifying over all inputs speak for the program only on
ASCII input. -/
def char_to_uppercase (c : Char) : List Char := [c.toUpper]

/-- Model of `char::is_lowercase` (ASCII fragment). -/
def char_is_lowercase (c : Char) : Bool := c.isLower

/-- Model of `char::is_uppercase` (ASCII fragment). -/
def char_is_uppercase (c : Char) : Bool := c.isUpper

/-- `fn is_separator(c: char) -> bool { c == ' ' || c == '-' || c == '_' }` -/
def is_separator (c : Char) : Bool :=
  c == ' ' || c == '-' || c == '_'

/-- `fn swap_separator(c: char, sep: char) -> char` from `case.rs`. -/
def swap_separator (c sep : Char) : Char :=
  if is_separator c then sep else c

/-- `last.map_or(false, char::is_lowercase)`: whether the optional previous
character is a lowercase character. -/
def optIsLower : Option Char → Bool
  | some l => char_is_lowercase l
  | none => false

/-- `iter.peek().cloned().map_or(false, is_separator)`: whether the next
character of the remaining input is a separator. -/
def headIsSep : List Char → Bool
  | c :: _ => is_separator c
  | [] => false

/-- `fn scan_to_camel(state: &mut (bool, Option<char>), curr: char) -> Option<String>`
from `case.rs`, with the state passed explicitly: the result pairs the
updated state with the emitted characters.  The Rust function first stores
`curr` into `state.1`, then branches on the capitalization flag, on
`is_separator`, and on whether the last character was lowercase. -/
def scan_to_camel (state : Bool × Option Char) (curr : Char) :
    (Bool × Option Char) × List Char :=
  let last := state.2
  if state.1 then
    ((false, some curr), char_to_uppercase curr)
  else if is_separator curr then
    ((true, some curr), [])
  else if !optIsLower last then
    ((false, some curr), char_to_lowercase curr)
  else
    ((false, some curr), [curr])

/-- The iterator `string.chars().scan(state, scan_to_camel)` collected into a
string: thread the state through `scan_to_camel` over the character list and
concatenate the emitted pieces. -/
def scanChars (state : Bool × Option Char) : List Char → List Char
  | [] => []
  | c :: cs =>
    let r := scan_to_camel state c
    r.2 ++ scanChars r.1 cs

/-- The `BreakCamel` iterator from `case.rs`: emits the source characters,
inserting `sep` between a lowercase character and an immediately following
uppercase character (the `br` flag delays the separator to the next pull,
which on a list amounts to inserting it between the two characters). -/
def break_camel (sep : Char) : List Char → List Char
  | [] => []
  | c :: cs =>
    match cs with
    | [] => [c]
    | d :: _ =>
      if char_is_lowercase c && char_is_uppercase d then
        c :: sep :: break_camel sep cs
      else
        c :: break_camel sep cs

/-- The loop of `CapitalizeWords::next` from `case.rs`, with the `cap` flag
explicit.  When `cap` is set the character is uppercased (draining the
whole expansion, like the `upper` buffer) and the flag cleared; otherwise
the character is emitted as-is, and a separator whose successor is not a
separator sets the flag. -/
def capitalizeAux (cap : Bool) : List Char → List Char
  | [] => []
  | c :: cs =>
    if cap then
      char_to_uppercase c ++ capitalizeAux false cs
    else if is_separator c && !headIsSep cs then
      c :: capitalizeAux true cs
    else
      c :: capitalizeAux false cs

/-- `fn capitalize_words` (the `Extras::capitalize_words` adaptor): the
initial flag is true unless the first character is a separator. -/
def capitalize_words (s : List Char) : List Char :=
  capitalizeAux (!headIsSep s) s

/-- `pub fn to_lower_case` from `case.rs`. -/
def to_lower_case (s : List Char) : List Char :=
  s.flatMap char_to_lowercase

/-- `pub fn to_upper_case` from `case.rs`. -/
def to_upper_case (s : List Char) : List Char :=
  s.flatMap char_to_uppercase

/-- `pub fn to_sentence_case` from `case.rs`. -/
def to_sentence_case (s : List Char) : List Char :=
  (break_camel ' ' (s.map (fun c => swap_separator c ' '))).flatMap char_to_lowercase

/-- `pub fn to_title_case` from `case.rs`. -/
def to_title_case (s : List Char) : List Char :=
  capitalize_words
    ((break_camel ' ' (s.map (fun c => swap_separator c ' '))).flatMap char_to_lowercase)

/-- `pub fn to_camel_case` from `case.rs`. -/
def to_camel_case (s : List Char) : List Char :=
  scanChars (false, none) s

/-- `pub fn to_pascal_case` from `case.rs`. -/
def to_pascal_case (s : List Char) : List Char :=
  scanChars (true, none) s

/-- `pub fn to_kebab_case` from `case.rs`. -/
def to_kebab_case (s : List Char) : List Char :=
  (break_camel '-' (s.map (fun c => swap_separator c '-'))).flatMap char_to_lowercase

/-- `pub fn to_train_case` from `case.rs`. -/
def to_train_case (s : List Char) : List Char :=
  capitalize_words
    ((break_camel '-' (s.map (fun c => swap_separator c '-'))).flatMap char_to_lowercase)

/-- `pub fn to_snake_case` from `case.rs`. -/
def to_snake_case (s : List Char) : List Char :=
  (break_camel '_' (s.map (fun c => swap_separator c '_'))).flatMap char_to_lowercase

/-- `pub fn to_constant_case` from `case.rs`. -/
def to_constant_case (s : List Char) : List Char :=
  (break_camel '_' (s.map (fun c => swap_separator c '_'))).flatMap char_to_uppercase

/-- `pub fn is_lower_case(string) -> bool { string == to_lower_case(string) }` -/
def is_lower_case (s : List Char) : Bool := s == to_lower_case s

/-- `pub fn is_upper_case` from `case.rs`. -/
def is_upper_case (s : List Char) : Bool := s == to_upper_case s

/-- `pub fn is_sentence_case` from `case.rs`. -/
def is_sentence_case (s : List Char) : Bool := s == to_sentence_case s

/-- `pub fn is_title_case` from `case.rs`. -/
def is_title_case (s : List Char) : Bool := s == to_title_case s

/-- `pub fn is_camel_case` from `case.rs`. -/
def is_camel_case (s : List Char) : Bool := s == to_camel_case s

/-- `pub fn is_pascal_case` from `case.rs`. -/
def is_pascal_case (s : List Char) : Bool := s == to_pascal_case s

/-- `pub fn is_kebab_case` from `case.rs`. -/
def is_kebab_case (s : List Char) : Bool := s == to_kebab_case s

/-- `pub fn is_train_case` from `case.rs`. -/
def is_train_case (s : List Char) : Bool := s == to_train_case s

/-- `pub fn is_snake_case` from `case.rs`. -/
def is_snake_case (s : List Char) : Bool := s == to_snake_case s

/-- `pub fn is_constant_case` from `case.rs`. -/
def is_constant_case (s : List Char) : Bool := s == to_constant_case s

/-- Whether the list contains no two adjacent separators. -/
def noAdjSep : List Char → Bool
  | c :: d :: t => !(is_separator c && is_separator d) && noAdjSep (d :: t)
  | _ => true

/-- Spec wording: an implicit camel boundary sits between adjacent characters
`c` and `d` exactly when `c` is lowercase and `d` is uppercase. -/
def boundary (c d : Char) : Bool := char_is_lowercase c && char_is_uppercase d

/-- Spec-side description of the Boundary Normalizer: the first character,
then every later character preceded by exactly one `sep` when the adjacent
input pair is a lowercase-to-uppercase transition, and by nothing
otherwise. -/
def breakSpec (sep : Char) : List Char → List Char
  | [] => []
  | c :: cs =>
    c :: ((c :: cs).zip cs).flatMap (fun p => if boundary p.1 p.2 then [sep, p.2] else [p.2])

/-- ASCII letter or recognized separator: the domain of the separator
fungibility property. -/
def asciiLetterOrSep (c : Char) : Bool := c.isAlpha || is_separator c

end Case

/-- The `Inflect` trait from `lib.rs`, modelled as a record of its methods
(in declaration order it has sixteen methods: the eight conversions from
sentence through constant and their eight predicates; the lower/upper pair
is not part of the trait). -/
structure Inflect where
  to_sentence_case : List Char → List Char
  is_sentence_case : List Char → Bool
  to_title_case : List Char → List Char
  is_title_case : List Char → Bool
  to_camel_case : List Char → List Char
  is_camel_case : List Char → Bool
  to_pascal_case : List Char → List Char
  is_pascal_case : List Char → Bool
  to_kebab_case : List Char → List Char
  is_kebab_case : List Char → Bool
  to_train_case : List Char → List Char
  is_train_case : List Char → Bool
  to_snake_case : List Char → List Char
  is_snake_case : List Char → Bool
  to_constant_case : List Char → List Char
  is_constant_case : List Char → Bool

/-- The names of the methods declared by `trait Inflect` in `lib.rs`, in
declaration order. -/
def inflectMethodNames : List String :=
  ["to_sentence_case", "is_sentence_case",
   "to_title_case", "is_title_case",
   "to_camel_case", "is_camel_case",
   "to_pascal_case", "is_pascal_case",
   "to_kebab_case", "is_kebab_case",
   "to_train_case", "is_train_case",
   "to_snake_case", "is_snake_case",
   "to_constant_case", "is_constant_case"]

/-- `impl<'a> Inflect for &'a str` from `lib.rs`: every method delegates to
the corresponding free function of the `case` module. -/
def strInflect : Inflect where
  to_sentence_case := Case.to_sentence_case
  is_sentence_case := Case.is_sentence_case
  to_title_case := Case.to_title_case
  is_title_case := Case.is_title_case
  to_camel_case := Case.to_camel_case
  is_camel_case := Case.is_camel_case
  to_pascal_case := Case.to_pascal_case
  is_pascal_case := Case.is_pascal_case
  to_kebab_case := Case.to_kebab_case
  is_kebab_case := Case.is_kebab_case
  to_train_case := Case.to_train_case
  is_train_case := Case.is_train_case
  to_snake_case := Case.to_snake_case
  is_snake_case := Case.is_snake_case
  to_constant_case := Case.to_constant_case
  is_constant_case := Case.is_constant_case

/-- `impl Inflect for String` from `lib.rs`: identical delegation. -/
def stringInflect : Inflect where
  to_sentence_case := Case.to_sentence_case
  is_sentence_case := Case.is_sentence_case
  to_title_case := Case.to_title_case
  is_title_case := Case.is_title_case
  to_camel_case := Case.to_camel_case
  is_camel_case := Case.is_camel_case
  to_pascal_case := Case.to_pascal_case
  is_pascal_case := Case.is_pascal_case
  to_kebab_case := Case.to_kebab_case
  is_kebab_case := Case.is_kebab_case
  to_train_case := Case.to_train_case
  is_train_case := Case.is_train_case
  to_snake_case := Case.to_snake_case
  is_snake_case := Case.is_snake_case
  to_constant_case := Case.to_constant_case
  is_constant_case := Case.is_constant_case

namespace Case


/-! ## Character-level facts about the ASCII case mapping -/

theorem uint32_le_iff {a b : UInt32} : a ≤ b ↔ a.toNat ≤ b.toNat := Iff.rfl

theorem char_eq_iff_toNat {a b : Char} : a = b ↔ a.toNat = b.toNat :=
  ⟨fun h => h ▸ rfl, fun h => Char.eq_of_val_eq (UInt32.toNat.inj h)⟩

theorem char_toNat_ofNat {n : Nat} (h : n.isValidChar) : (Char.ofNat n).toNat = n := by
  simp only [Char.ofNat, dif_pos h]
  rfl

theorem char_isUpper_iff {c : Char} : c.isUpper = true ↔ 65 ≤ c.toNat ∧ c.toNat ≤ 90 := by
  simp only [Char.isUpper, Bool.and_eq_true, decide_eq_true_eq, ge_iff_le, uint32_le_iff]
  exact Iff.rfl

theorem char_isLower_iff {c : Char} : c.isLower = true ↔ 97 ≤ c.toNat ∧ c.toNat ≤ 122 := by
  simp only [Char.isLower, Bool.and_eq_true, decide_eq_true_eq, ge_iff_le, uint32_le_iff]
  exact Iff.rfl

theorem toLower_def (c : Char) :
    c.toLower = if 65 ≤ c.toNat ∧ c.toNat ≤ 90 then Char.ofNat (c.toNat + 32) else c := rfl

theorem toUpper_def (c : Char) :
    c.toUpper = if 97 ≤ c.toNat ∧ c.toNat ≤ 122 then Char.ofNat (c.toNat - 32) else c := rfl

theorem toNat_toLower_of_isUpper {c : Char} (h : c.isUpper = true) :
    c.toLower.toNat = c.toNat + 32 := by
  obtain ⟨h1, h2⟩ := char_isUpper_iff.mp h
  rw [toLower_def, if_pos ⟨h1, h2⟩, char_toNat_ofNat (Or.inl (by omega))]

theorem toNat_toUpper_of_isLower {c : Char} (h : c.isLower = true) :
    c.toUpper.toNat = c.toNat - 32 := by
  obtain ⟨h1, h2⟩ := char_isLower_iff.mp h
  rw [toUpper_def, if_pos ⟨h1, h2⟩, char_toNat_ofNat (Or.inl (by omega))]

theorem toLower_of_not_isUpper {c : Char} (h : c.isUpper = false) : c.toLower = c := by
  rw [toLower_def, if_neg]
  intro hc
  rw [char_isUpper_iff.mpr hc] at h
  simp at h

theorem toUpper_of_not_isLower {c : Char} (h : c.isLower = false) : c.toUpper = c := by
  rw [toUpper_def, if_neg]
  intro hc
  rw [char_isLower_iff.mpr hc] at h
  simp at h

theorem isUpper_toLower (c : Char) : c.toLower.isUpper = false := by
  cases hu : c.isUpper with
  | false => rw [toLower_of_not_isUpper hu]; exact hu
  | true =>
    have h1 := toNat_toLower_of_isUpper hu
    obtain ⟨h2, h3⟩ := char_isUpper_iff.mp hu
    cases hv : c.toLower.isUpper with
    | false => rfl
    | true =>
      obtain ⟨h4, h5⟩ := char_isUpper_iff.mp hv
      omega

theorem isLower_toUpper (c : Char) : c.toUpper.isLower = false := by
  cases hl : c.isLower with
  | false => rw [toUpper_of_not_isLower hl]; exact hl
  | true =>
    have h1 := toNat_toUpper_of_isLower hl
    obtain ⟨h2, h3⟩ := char_isLower_iff.mp hl
    cases hv : c.toUpper.isLower with
    | false => rfl
    | true =>
      obtain ⟨h4, h5⟩ := char_isLower_iff.mp hv
      omega

theorem toLower_toLower (c : Char) : c.toLower.toLower = c.toLower :=
  toLower_of_not_isUpper (isUpper_toLower c)

theorem toUpper_toUpper (c : Char) : c.toUpper.toUpper = c.toUpper :=
  toUpper_of_not_isLower (isLower_toUpper c)

theorem isUpper_of_toLower_fixed {c : Char} (h : c.toLower = c) : c.isUpper = false := by
  cases hu : c.isUpper with
  | false => rfl
  | true =>
    have h1 := toNat_toLower_of_isUpper hu
    rw [h] at h1
    omega

theorem isLower_of_toUpper_fixed {c : Char} (h : c.toUpper = c) : c.isLower = false := by
  cases hl : c.isLower with
  | false => rfl
  | true =>
    have h1 := toNat_toUpper_of_isLower hl
    obtain ⟨h2, _⟩ := char_isLower_iff.mp hl
    rw [h] at h1
    omega

theorem toLower_toUpper_of_toLower_fixed {c : Char} (h : c.toLower = c) :
    c.toUpper.toLower = c := by
  cases hl : c.isLower with
  | false => rw [toUpper_of_not_isLower hl, h]
  | true =>
    have h1 := toNat_toUpper_of_isLower hl
    obtain ⟨h2, h3⟩ := char_isLower_iff.mp hl
    have hu : c.toUpper.isUpper = true := char_isUpper_iff.mpr (by omega)
    rw [char_eq_iff_toNat, toNat_toLower_of_isUpper hu, h1]
    omega

theorem is_separator_iff {c : Char} :
    is_separator c = true ↔ c.toNat = 32 ∨ c.toNat = 45 ∨ c.toNat = 95 := by
  have h1 : ' '.toNat = 32 := rfl
  have h2 : '-'.toNat = 45 := rfl
  have h3 : '_'.toNat = 95 := rfl
  simp only [is_separator, Bool.or_eq_true, beq_iff_eq, char_eq_iff_toNat, h1, h2, h3]
  tauto

theorem sep_not_isLower {c : Char} (h : is_separator c = true) : c.isLower = false := by
  cases hl : c.isLower with
  | false => rfl
  | true =>
    obtain ⟨h1, h2⟩ := char_isLower_iff.mp hl
    rcases is_separator_iff.mp h with h3 | h3 | h3 <;> omega

theorem sep_not_isUpper {c : Char} (h : is_separator c = true) : c.isUpper = false := by
  cases hu : c.isUpper with
  | false => rfl
  | true =>
    obtain ⟨h1, h2⟩ := char_isUpper_iff.mp hu
    rcases is_separator_iff.mp h with h3 | h3 | h3 <;> omega

theorem not_sep_of_isLower {c : Char} (h : c.isLower = true) : is_separator c = false := by
  cases hs : is_separator c with
  | false => rfl
  | true => rw [sep_not_isLower hs] at h; exact absurd h (by simp)

theorem is_separator_toLower (c : Char) : is_separator c.toLower = is_separator c := by
  cases hu : c.isUpper with
  | false => rw [toLower_of_not_isUpper hu]
  | true =>
    have h1 := toNat_toLower_of_isUpper hu
    obtain ⟨h2, h3⟩ := char_isUpper_iff.mp hu
    have l : is_separator c.toLower = false := by
      cases hs : is_separator c.toLower with
      | false => rfl
      | true => rcases is_separator_iff.mp hs with h4 | h4 | h4 <;> omega
    have r : is_separator c = false := by
      cases hs : is_separator c with
      | false => rfl
      | true => rcases is_separator_iff.mp hs with h4 | h4 | h4 <;> omega
    rw [l, r]

theorem char_is_lowercase_eq (c : Char) : char_is_lowercase c = c.isLower := rfl

theorem char_is_uppercase_eq (c : Char) : char_is_uppercase c = c.isUpper := rfl

theorem is_separator_toUpper (c : Char) : is_separator c.toUpper = is_separator c := by
  cases hl : c.isLower with
  | false => rw [toUpper_of_not_isLower hl]
  | true =>
    have h1 := toNat_toUpper_of_isLower hl
    obtain ⟨h2, h3⟩ := char_isLower_iff.mp hl
    have l : is_separator c.toUpper = false := by
      cases hs : is_separator c.toUpper with
      | false => rfl
      | true => rcases is_separator_iff.mp hs with h4 | h4 | h4 <;> omega
    have r : is_separator c = false := by
      cases hs : is_separator c with
      | false => rfl
      | true => rcases is_separator_iff.mp hs with h4 | h4 | h4 <;> omega
    rw [l, r]

theorem is_separator_swap {sep : Char} (hsep : is_separator sep = true) (c : Char) :
    is_separator (swap_separator c sep) = is_separator c := by
  unfold swap_separator
  split
  · rename_i h
    rw [hsep, h]
  · rfl

theorem swap_of_norm {sep c : Char} (h : is_separator c = true → c = sep) :
    swap_separator c sep = c := by
  unfold swap_separator
  split
  · rename_i hs
    rw [h hs]
  · rfl

/-! ## Helper lemmas about the list pipelines -/

theorem flatMap_lower_eq_map (l : List Char) :
    l.flatMap char_to_lowercase = l.map Char.toLower := by
  induction l with
  | nil => rfl
  | cons c cs ih => simp only [List.flatMap_cons, List.map_cons, char_to_lowercase, ih]; rfl

theorem flatMap_upper_eq_map (l : List Char) :
    l.flatMap char_to_uppercase = l.map Char.toUpper := by
  induction l with
  | nil => rfl
  | cons c cs ih => simp only [List.flatMap_cons, List.map_cons, char_to_uppercase, ih]; rfl

theorem map_swap_id {sep : Char} {l : List Char}
    (h : ∀ c ∈ l, is_separator c = true → c = sep) :
    l.map (fun c => swap_separator c sep) = l := by
  induction l with
  | nil => rfl
  | cons c cs ih =>
    rw [List.map_cons, swap_of_norm (h c (by simp)), ih (fun x hx => h x (by simp [hx]))]

theorem map_toLower_id {l : List Char} (h : ∀ c ∈ l, c.toLower = c) :
    l.map Char.toLower = l := by
  induction l with
  | nil => rfl
  | cons c cs ih =>
    rw [List.map_cons, h c (by simp), ih (fun x hx => h x (by simp [hx]))]

theorem map_toUpper_id {l : List Char} (h : ∀ c ∈ l, c.toUpper = c) :
    l.map Char.toUpper = l := by
  induction l with
  | nil => rfl
  | cons c cs ih =>
    rw [List.map_cons, h c (by simp), ih (fun x hx => h x (by simp [hx]))]

theorem break_camel_cons_of_not_lower {c : Char} (sep : Char) (l : List Char)
    (h : char_is_lowercase c = false) :
    break_camel sep (c :: l) = c :: break_camel sep l := by
  cases l with
  | nil => rfl
  | cons d t => simp [break_camel, h]

theorem break_camel_cons_of_not_upper_head {c d : Char} (sep : Char) (t : List Char)
    (h : char_is_uppercase d = false) :
    break_camel sep (c :: d :: t) = c :: break_camel sep (d :: t) := by
  simp [break_camel, h]

theorem break_camel_of_all_not_upper {sep : Char} {l : List Char}
    (h : ∀ c ∈ l, char_is_uppercase c = false) :
    break_camel sep l = l := by
  induction l with
  | nil => rfl
  | cons c cs ih =>
    cases cs with
    | nil => rfl
    | cons d t =>
      rw [break_camel_cons_of_not_upper_head sep t (h d (by simp)),
        ih (fun x hx => h x (by simp [hx]))]

theorem break_camel_of_all_not_lower {sep : Char} {l : List Char}
    (h : ∀ c ∈ l, char_is_lowercase c = false) :
    break_camel sep l = l := by
  induction l with
  | nil => rfl
  | cons c cs ih =>
    rw [break_camel_cons_of_not_lower sep cs (h c (by simp)),
      ih (fun x hx => h x (by simp [hx]))]

theorem mem_break_camel {sep c : Char} {l : List Char} (h : c ∈ break_camel sep l) :
    c ∈ l ∨ c = sep := by
  induction l with
  | nil => simp [break_camel] at h
  | cons a cs ih =>
    cases cs with
    | nil =>
      simp only [break_camel, List.mem_singleton] at h
      exact Or.inl (by simp [h])
    | cons d t =>
      by_cases hb : (char_is_lowercase a && char_is_uppercase d) = true
      · simp only [break_camel, hb, if_true, List.mem_cons] at h
        rcases h with h | h | h
        · exact Or.inl (by simp [h])
        · exact Or.inr h
        · rcases ih h with h2 | h2
          · exact Or.inl (by simp [h2])
          · exact Or.inr h2
      · rw [Bool.not_eq_true] at hb
        simp only [break_camel, hb, Bool.false_eq_true, if_false, List.mem_cons] at h
        rcases h with h | h
        · exact Or.inl (by simp [h])
        · rcases ih h with h2 | h2
          · exact Or.inl (by simp [h2])
          · exact Or.inr h2

theorem break_camel_ne_nil {sep : Char} {l : List Char} (h : l ≠ []) :
    break_camel sep l ≠ [] := by
  cases l with
  | nil => exact absurd rfl h
  | cons a cs =>
    cases cs with
    | nil => simp [break_camel]
    | cons d t =>
      by_cases hb : (char_is_lowercase a && char_is_uppercase d) = true
      · simp [break_camel, hb]
      · rw [Bool.not_eq_true] at hb
        simp [break_camel, hb]

theorem break_camel_cons_cons (sep c d : Char) (t : List Char) :
    break_camel sep (c :: d :: t) =
      if (char_is_lowercase c && char_is_uppercase d) = true then
        c :: sep :: break_camel sep (d :: t)
      else
        c :: break_camel sep (d :: t) := rfl

theorem getLast?_cons_ne {a : Char} {l : List Char} (h : l ≠ []) :
    (a :: l).getLast? = l.getLast? := by
  cases l with
  | nil => exact absurd rfl h
  | cons b t => exact List.getLast?_cons_cons

theorem break_camel_getLast? (sep : Char) (l : List Char) :
    (break_camel sep l).getLast? = l.getLast? := by
  induction l with
  | nil => rfl
  | cons a cs ih =>
    cases cs with
    | nil => rfl
    | cons d t =>
      have hne : break_camel sep (d :: t) ≠ [] := break_camel_ne_nil (by simp)
      rw [break_camel_cons_cons]
      split
      · rw [List.getLast?_cons_cons, getLast?_cons_ne hne, ih, List.getLast?_cons_cons]
      · rw [getLast?_cons_ne hne, ih, List.getLast?_cons_cons]

theorem capitalizeAux_true_cons (c : Char) (t : List Char) :
    capitalizeAux true (c :: t) = c.toUpper :: capitalizeAux false t := by
  simp [capitalizeAux, char_to_uppercase]

theorem capitalizeAux_false_cons (d : Char) (t : List Char) :
    capitalizeAux false (d :: t) = d :: capitalizeAux (is_separator d && !headIsSep t) t := by
  simp only [capitalizeAux, Bool.false_eq_true, if_false]
  split
  · rename_i h
    rw [h]
  · rename_i h
    rw [Bool.not_eq_true] at h
    rw [h]

theorem mem_capitalizeAux {c : Char} {cap : Bool} {l : List Char}
    (h : c ∈ capitalizeAux cap l) : ∃ d ∈ l, c = d ∨ c = d.toUpper := by
  induction l generalizing cap with
  | nil => simp [capitalizeAux] at h
  | cons a t ih =>
    cases cap with
    | true =>
      rw [capitalizeAux_true_cons, List.mem_cons] at h
      rcases h with h | h
      · exact ⟨a, by simp, Or.inr h⟩
      · obtain ⟨d, hd, hc⟩ := ih h
        exact ⟨d, by simp [hd], hc⟩
    | false =>
      rw [capitalizeAux_false_cons, List.mem_cons] at h
      rcases h with h | h
      · exact ⟨a, by simp, Or.inl h⟩
      · obtain ⟨d, hd, hc⟩ := ih h
        exact ⟨d, by simp [hd], hc⟩

theorem capitalizeAux_getLast?_sep (cap : Bool) (l : List Char) :
    (capitalizeAux cap l).getLast?.map is_separator = l.getLast?.map is_separator := by
  induction l generalizing cap with
  | nil => rfl
  | cons a t ih =>
    cases t with
    | nil =>
      cases cap with
      | true =>
        rw [capitalizeAux_true_cons]
        show Option.map is_separator [a.toUpper].getLast? = Option.map is_separator [a].getLast?
        simp [is_separator_toUpper]
      | false =>
        rw [capitalizeAux_false_cons]
        show Option.map is_separator [a].getLast? = Option.map is_separator [a].getLast?
        rfl
    | cons b u =>
      have hne : ∀ cap2 : Bool, capitalizeAux cap2 (b :: u) ≠ [] := by
        intro cap2
        cases cap2 with
        | true => rw [capitalizeAux_true_cons]; simp
        | false => rw [capitalizeAux_false_cons]; simp
      cases cap with
      | true =>
        rw [capitalizeAux_true_cons, getLast?_cons_ne (hne false), ih,
          List.getLast?_cons_cons]
      | false =>
        rw [capitalizeAux_false_cons, getLast?_cons_ne (hne _), ih,
          List.getLast?_cons_cons]

/-! ## Normalization: characters produced by the separator-based pipelines -/

theorem mem_lower_pipeline {sep c : Char} {s : List Char}
    (h : c ∈ (break_camel sep (s.map (fun x => swap_separator x sep))).flatMap
        char_to_lowercase) :
    c.toLower = c ∧ (is_separator c = true → c = sep) := by
  rw [flatMap_lower_eq_map, List.mem_map] at h
  obtain ⟨d, hd, hc⟩ := h
  subst hc
  refine ⟨toLower_toLower d, fun hs => ?_⟩
  rw [is_separator_toLower] at hs
  have hd2 : d = sep := by
    rcases mem_break_camel hd with h2 | h2
    · rw [List.mem_map] at h2
      obtain ⟨e, _, he⟩ := h2
      subst he
      unfold swap_separator at hs ⊢
      split
      · rfl
      · rename_i he2
        rw [if_neg he2] at hs
        exact absurd hs he2
    · exact h2
  subst hd2
  exact toLower_of_not_isUpper (sep_not_isUpper hs)

theorem mem_upper_pipeline {sep c : Char} {s : List Char}
    (h : c ∈ (break_camel sep (s.map (fun x => swap_separator x sep))).flatMap
        char_to_uppercase) :
    c.toUpper = c ∧ (is_separator c = true → c = sep) := by
  rw [flatMap_upper_eq_map, List.mem_map] at h
  obtain ⟨d, hd, hc⟩ := h
  subst hc
  refine ⟨toUpper_toUpper d, fun hs => ?_⟩
  rw [is_separator_toUpper] at hs
  have hd2 : d = sep := by
    rcases mem_break_camel hd with h2 | h2
    · rw [List.mem_map] at h2
      obtain ⟨e, _, he⟩ := h2
      subst he
      unfold swap_separator at hs ⊢
      split
      · rfl
      · rename_i he2
        rw [if_neg he2] at hs
        exact absurd hs he2
    · exact h2
  subst hd2
  exact toUpper_of_not_isLower (sep_not_isLower hs)

/-! ## Idempotence of the lower and upper pipelines on normalized input -/

theorem lower_pipeline_of_norm {sep : Char} {l : List Char}
    (hn : ∀ c ∈ l, c.toLower = c ∧ (is_separator c = true → c = sep)) :
    (break_camel sep (l.map (fun x => swap_separator x sep))).flatMap char_to_lowercase
      = l := by
  rw [flatMap_lower_eq_map, map_swap_id (fun c hc => (hn c hc).2),
    break_camel_of_all_not_upper (fun c hc => by
      rw [char_is_uppercase_eq]
      exact isUpper_of_toLower_fixed (hn c hc).1),
    map_toLower_id (fun c hc => (hn c hc).1)]

theorem upper_pipeline_of_norm {sep : Char} {l : List Char}
    (hn : ∀ c ∈ l, c.toUpper = c ∧ (is_separator c = true → c = sep)) :
    (break_camel sep (l.map (fun x => swap_separator x sep))).flatMap char_to_uppercase
      = l := by
  rw [flatMap_upper_eq_map, map_swap_id (fun c hc => (hn c hc).2),
    break_camel_of_all_not_lower (fun c hc => by
      rw [char_is_lowercase_eq]
      exact isLower_of_toUpper_fixed (hn c hc).1),
    map_toUpper_id (fun c hc => (hn c hc).1)]

theorem lower_pipeline_capitalizeAux {sep : Char} (hsep : is_separator sep = true)
    (l : List Char) (cap : Bool)
    (hn : ∀ c ∈ l, c.toLower = c ∧ (is_separator c = true → c = sep)) :
    (break_camel sep ((capitalizeAux cap l).map (fun x => swap_separator x sep))).flatMap
        char_to_lowercase = l := by
  induction l generalizing cap with
  | nil => rfl
  | cons c cs ih =>
    have hc := hn c (by simp)
    have hcs : ∀ x ∈ cs, x.toLower = x ∧ (is_separator x = true → x = sep) :=
      fun x hx => hn x (by simp [hx])
    cases cap with
    | true =>
      rw [capitalizeAux_true_cons, List.map_cons]
      have hswap : swap_separator c.toUpper sep = c.toUpper := by
        unfold swap_separator
        split
        · rename_i hs
          rw [is_separator_toUpper] at hs
          rw [hc.2 hs, toUpper_of_not_isLower (sep_not_isLower hsep)]
        · rfl
      rw [hswap, break_camel_cons_of_not_lower sep _ (by
          rw [char_is_lowercase_eq]
          exact isLower_toUpper c)]
      rw [flatMap_lower_eq_map, List.map_cons, toLower_toUpper_of_toLower_fixed hc.1,
        ← flatMap_lower_eq_map, ih false hcs]
    | false =>
      rw [capitalizeAux_false_cons, List.map_cons, swap_of_norm hc.2]
      cases hl : char_is_lowercase c with
      | false =>
        rw [break_camel_cons_of_not_lower sep _ hl, flatMap_lower_eq_map, List.map_cons,
          hc.1, ← flatMap_lower_eq_map, ih _ hcs]
      | true =>
        have hcsep : is_separator c = false := by
          rw [char_is_lowercase_eq] at hl
          exact not_sep_of_isLower hl
        rw [hcsep, Bool.false_and]
        cases cs with
        | nil =>
          show [c.toLower] = [c]
          rw [hc.1]
        | cons d t =>
          have hd := hn d (by simp)
          rw [capitalizeAux_false_cons, List.map_cons, swap_of_norm hd.2,
            break_camel_cons_of_not_upper_head sep _ (by
              rw [char_is_uppercase_eq]
              exact isUpper_of_toLower_fixed hd.1)]
          rw [flatMap_lower_eq_map, List.map_cons, hc.1, ← flatMap_lower_eq_map]
          have := ih false hcs
          rw [capitalizeAux_false_cons, List.map_cons, swap_of_norm hd.2] at this
          rw [this]

/-! ## Splitting the pipelines at a literal separator -/

theorem headIsSep_nil : headIsSep [] = false := rfl

theorem headIsSep_cons (e : Char) (t : List Char) : headIsSep (e :: t) = is_separator e := rfl

theorem break_camel_append_sep {sep : Char} (hsep : is_separator sep = true)
    (l1 l2 : List Char) :
    break_camel sep (l1 ++ sep :: l2) = break_camel sep l1 ++ sep :: break_camel sep l2 := by
  induction l1 with
  | nil =>
    rw [List.nil_append, break_camel_cons_of_not_lower sep l2 (by
      rw [char_is_lowercase_eq]; exact sep_not_isLower hsep)]
    rfl
  | cons a t ih =>
    cases t with
    | nil =>
      rw [List.cons_append, List.nil_append,
        break_camel_cons_of_not_upper_head sep l2 (by
          rw [char_is_uppercase_eq]; exact sep_not_isUpper hsep),
        break_camel_cons_of_not_lower sep l2 (by
          rw [char_is_lowercase_eq]; exact sep_not_isLower hsep)]
      rfl
    | cons b u =>
      rw [List.cons_append, List.cons_append, break_camel_cons_cons, break_camel_cons_cons]
      rw [← List.cons_append, ih]
      split <;> simp

theorem capitalizeAux_append_sep {sep : Char} (hsep : is_separator sep = true)
    (l1 l2 : List Char) (cap : Bool) (h : l1 = [] → cap = false) :
    capitalizeAux cap (l1 ++ sep :: l2) =
      capitalizeAux cap l1 ++ sep :: capitalizeAux (!headIsSep l2) l2 := by
  induction l1 generalizing cap with
  | nil =>
    rw [h rfl, List.nil_append, capitalizeAux_false_cons, hsep, Bool.true_and]
    rfl
  | cons a t ih =>
    cases cap with
    | true =>
      rw [List.cons_append, capitalizeAux_true_cons, capitalizeAux_true_cons,
        ih false (fun _ => rfl), List.cons_append]
    | false =>
      rw [List.cons_append, capitalizeAux_false_cons, capitalizeAux_false_cons]
      cases t with
      | nil =>
        rw [List.nil_append, headIsSep_cons, hsep, Bool.not_true, Bool.and_false,
          headIsSep_nil, Bool.not_false, Bool.and_true, capitalizeAux_false_cons,
          hsep, Bool.true_and]
        rfl
      | cons b u =>
        have hih := ih (is_separator a && !is_separator b) (fun hh => by simp at hh)
        rw [List.cons_append] at hih
        rw [List.cons_append, headIsSep_cons, headIsSep_cons, hih]
        rfl

theorem capitalize_words_append_sep {sep : Char} (hsep : is_separator sep = true)
    (l1 l2 : List Char) :
    capitalize_words (l1 ++ sep :: l2) =
      capitalize_words l1 ++ sep :: capitalize_words l2 := by
  unfold capitalize_words
  cases l1 with
  | nil =>
    rw [List.nil_append, headIsSep_cons, hsep, Bool.not_true, capitalizeAux_false_cons,
      hsep, Bool.true_and, headIsSep_nil, Bool.not_false]
    rfl
  | cons a t =>
    have hf : headIsSep ((a :: t) ++ sep :: l2) = is_separator a := by
      rw [List.cons_append, headIsSep_cons]
    rw [hf, headIsSep_cons]
    exact capitalizeAux_append_sep hsep (a :: t) l2 (!is_separator a) (fun hh => by simp at hh)

theorem swap_separator_sep {sep c : Char} (hc : is_separator c = true) :
    swap_separator c sep = sep := by
  unfold swap_separator
  rw [hc]
  rfl

theorem lower_pipeline_append_sep {sep c : Char} (hsep : is_separator sep = true)
    (hc : is_separator c = true) (s1 s2 : List Char) :
    (break_camel sep ((s1 ++ c :: s2).map (fun x => swap_separator x sep))).flatMap
        char_to_lowercase
      = (break_camel sep (s1.map (fun x => swap_separator x sep))).flatMap char_to_lowercase
        ++ sep ::
          (break_camel sep (s2.map (fun x => swap_separator x sep))).flatMap
            char_to_lowercase := by
  rw [List.map_append, List.map_cons, swap_separator_sep hc, break_camel_append_sep hsep,
    List.flatMap_append, List.flatMap_cons]
  have h : char_to_lowercase sep = [sep] := by
    unfold char_to_lowercase
    rw [toLower_of_not_isUpper (sep_not_isUpper hsep)]
  rw [h]
  simp

theorem upper_pipeline_append_sep {sep c : Char} (hsep : is_separator sep = true)
    (hc : is_separator c = true) (s1 s2 : List Char) :
    (break_camel sep ((s1 ++ c :: s2).map (fun x => swap_separator x sep))).flatMap
        char_to_uppercase
      = (break_camel sep (s1.map (fun x => swap_separator x sep))).flatMap char_to_uppercase
        ++ sep ::
          (break_camel sep (s2.map (fun x => swap_separator x sep))).flatMap
            char_to_uppercase := by
  rw [List.map_append, List.map_cons, swap_separator_sep hc, break_camel_append_sep hsep,
    List.flatMap_append, List.flatMap_cons]
  have h : char_to_uppercase sep = [sep] := by
    unfold char_to_uppercase
    rw [toUpper_of_not_isLower (sep_not_isLower hsep)]
  rw [h]
  simp

/-! ## Facts about the camel scan -/

theorem scanChars_nil (st : Bool × Option Char) : scanChars st [] = [] := rfl

theorem scanChars_cons (st : Bool × Option Char) (c : Char) (cs : List Char) :
    scanChars st (c :: cs) =
      (scan_to_camel st c).2 ++ scanChars (scan_to_camel st c).1 cs := rfl

theorem scan_to_camel_pending {st : Bool × Option Char} {c : Char} (h : st.1 = true) :
    scan_to_camel st c = ((false, some c), [c.toUpper]) := by
  unfold scan_to_camel char_to_uppercase
  rw [h]
  rfl

theorem scan_to_camel_sep {st : Bool × Option Char} {c : Char} (h1 : st.1 = false)
    (h2 : is_separator c = true) :
    scan_to_camel st c = ((true, some c), []) := by
  unfold scan_to_camel
  rw [h1, h2]
  rfl

theorem scan_to_camel_lower {st : Bool × Option Char} {c : Char} (h1 : st.1 = false)
    (h2 : is_separator c = false) (h3 : optIsLower st.2 = false) :
    scan_to_camel st c = ((false, some c), [c.toLower]) := by
  simp [scan_to_camel, char_to_lowercase, h1, h2, h3]

theorem scan_to_camel_pass {st : Bool × Option Char} {c : Char} (h1 : st.1 = false)
    (h2 : is_separator c = false) (h3 : optIsLower st.2 = true) :
    scan_to_camel st c = ((false, some c), [c]) := by
  simp [scan_to_camel, h1, h2, h3]

theorem scan_to_camel_not_sep {st : Bool × Option Char} {c : Char} (h1 : st.1 = false)
    (h2 : is_separator c = false) :
    (scan_to_camel st c).1 = (false, some c) ∧
      ((scan_to_camel st c).2 = [c.toLower] ∨ (scan_to_camel st c).2 = [c]) := by
  cases h3 : optIsLower st.2 with
  | false => rw [scan_to_camel_lower h1 h2 h3]; exact ⟨rfl, Or.inl rfl⟩
  | true => rw [scan_to_camel_pass h1 h2 h3]; exact ⟨rfl, Or.inr rfl⟩

theorem noAdjSep_tail {c : Char} {cs : List Char} (h : noAdjSep (c :: cs) = true) :
    noAdjSep cs = true := by
  cases cs with
  | nil => rfl
  | cons d t =>
    simp only [noAdjSep, Bool.and_eq_true] at h
    exact h.2

theorem noAdjSep_head {c d : Char} {t : List Char} (h : noAdjSep (c :: d :: t) = true)
    (hc : is_separator c = true) : is_separator d = false := by
  simp only [noAdjSep, Bool.and_eq_true] at h
  have h1 := h.1
  rw [hc, Bool.true_and, Bool.not_eq_true'] at h1
  exact h1

theorem scanChars_no_sep {l : List Char} (st : Bool × Option Char)
    (hadj : noAdjSep l = true) (hst : st.1 = true → headIsSep l = false) :
    ∀ d ∈ scanChars st l, is_separator d = false := by
  induction l generalizing st with
  | nil =>
    intro d hd
    simp [scanChars_nil] at hd
  | cons c cs ih =>
    intro d hd
    rw [scanChars_cons] at hd
    cases hpend : st.1 with
    | true =>
      have hcsep : is_separator c = false := by
        have := hst hpend
        rwa [headIsSep_cons] at this
      rw [scan_to_camel_pending hpend] at hd
      rcases List.mem_append.mp hd with hd | hd
      · rw [List.mem_singleton] at hd
        subst hd
        rw [is_separator_toUpper]
        exact hcsep
      · exact ih (false, some c) (noAdjSep_tail hadj) (fun hh => by simp at hh) d hd
    | false =>
      cases hcsep : is_separator c with
      | true =>
        rw [scan_to_camel_sep hpend hcsep] at hd
        rw [List.nil_append] at hd
        refine ih (true, some c) (noAdjSep_tail hadj) (fun _ => ?_) d hd
        cases cs with
        | nil => rfl
        | cons e t =>
          rw [headIsSep_cons]
          exact noAdjSep_head hadj hcsep
      | false =>
        obtain ⟨hst2, hout⟩ := scan_to_camel_not_sep hpend hcsep
        rcases List.mem_append.mp hd with hd | hd
        · rcases hout with ho | ho <;> rw [ho] at hd <;> rw [List.mem_singleton] at hd <;>
            subst hd
          · rw [is_separator_toLower]
            exact hcsep
          · exact hcsep
        · rw [hst2] at hd
          exact ih (false, some c) (noAdjSep_tail hadj) (fun hh => by simp at hh) d hd

/-! ## The Boundary Normalizer matches its spec-side description -/

theorem breakSpec_cons (sep c : Char) (cs : List Char) :
    breakSpec sep (c :: cs) =
      c :: ((c :: cs).zip cs).flatMap
        (fun p => if boundary p.1 p.2 then [sep, p.2] else [p.2]) := rfl

theorem break_camel_eq_breakSpec (sep : Char) (l : List Char) :
    break_camel sep l = breakSpec sep l := by
  induction l with
  | nil => rfl
  | cons c cs ih =>
    cases cs with
    | nil => rfl
    | cons d t =>
      rw [break_camel_cons_cons, ih, breakSpec_cons sep d t, breakSpec_cons sep c (d :: t),
        List.zip_cons_cons, List.flatMap_cons]
      cases hb : (char_is_lowercase c && char_is_uppercase d) with
      | true =>
        have hb2 : boundary c d = true := hb
        simp [hb2]
      | false =>
        have hb2 : boundary c d = false := hb
        simp [hb2]

/-! ## Last-character correspondence for the separator-based conversions -/

theorem not_lower_of_upper {c : Char} (h : c.isUpper = true) : c.isLower = false := by
  obtain ⟨h1, h2⟩ := char_isUpper_iff.mp h
  cases hl : c.isLower with
  | false => rfl
  | true =>
    obtain ⟨h3, h4⟩ := char_isLower_iff.mp hl
    omega

theorem getLast?_sep_lower_pipeline {sep : Char} (hsep : is_separator sep = true)
    (s : List Char) :
    ((break_camel sep (s.map (fun x => swap_separator x sep))).flatMap
        char_to_lowercase).getLast?.map is_separator = s.getLast?.map is_separator := by
  rw [flatMap_lower_eq_map, List.getLast?_map, break_camel_getLast?, List.getLast?_map]
  cases s.getLast? with
  | none => rfl
  | some a => simp [is_separator_toLower, is_separator_swap hsep]

theorem getLast?_sep_upper_pipeline {sep : Char} (hsep : is_separator sep = true)
    (s : List Char) :
    ((break_camel sep (s.map (fun x => swap_separator x sep))).flatMap
        char_to_uppercase).getLast?.map is_separator = s.getLast?.map is_separator := by
  rw [flatMap_upper_eq_map, List.getLast?_map, break_camel_getLast?, List.getLast?_map]
  cases s.getLast? with
  | none => rfl
  | some a => simp [is_separator_toUpper, is_separator_swap hsep]

/-! ## Split and last-character laws, per conversion -/

theorem to_sentence_case_split {c : Char} (hc : is_separator c = true) (s1 s2 : List Char) :
    to_sentence_case (s1 ++ c :: s2) = to_sentence_case s1 ++ ' ' :: to_sentence_case s2 :=
  lower_pipeline_append_sep (by decide) hc s1 s2

theorem to_kebab_case_split {c : Char} (hc : is_separator c = true) (s1 s2 : List Char) :
    to_kebab_case (s1 ++ c :: s2) = to_kebab_case s1 ++ '-' :: to_kebab_case s2 :=
  lower_pipeline_append_sep (by decide) hc s1 s2

theorem to_snake_case_split {c : Char} (hc : is_separator c = true) (s1 s2 : List Char) :
    to_snake_case (s1 ++ c :: s2) = to_snake_case s1 ++ '_' :: to_snake_case s2 :=
  lower_pipeline_append_sep (by decide) hc s1 s2

theorem to_constant_case_split {c : Char} (hc : is_separator c = true) (s1 s2 : List Char) :
    to_constant_case (s1 ++ c :: s2) = to_constant_case s1 ++ '_' :: to_constant_case s2 :=
  upper_pipeline_append_sep (by decide) hc s1 s2

theorem to_title_case_split {c : Char} (hc : is_separator c = true) (s1 s2 : List Char) :
    to_title_case (s1 ++ c :: s2) = to_title_case s1 ++ ' ' :: to_title_case s2 := by
  unfold to_title_case
  rw [lower_pipeline_append_sep (by decide) hc, capitalize_words_append_sep (by decide)]

theorem to_train_case_split {c : Char} (hc : is_separator c = true) (s1 s2 : List Char) :
    to_train_case (s1 ++ c :: s2) = to_train_case s1 ++ '-' :: to_train_case s2 := by
  unfold to_train_case
  rw [lower_pipeline_append_sep (by decide) hc, capitalize_words_append_sep (by decide)]

theorem getLast?_sep_sentence (s : List Char) :
    (to_sentence_case s).getLast?.map is_separator = s.getLast?.map is_separator :=
  getLast?_sep_lower_pipeline (by decide) s

theorem getLast?_sep_kebab (s : List Char) :
    (to_kebab_case s).getLast?.map is_separator = s.getLast?.map is_separator :=
  getLast?_sep_lower_pipeline (by decide) s

theorem getLast?_sep_snake (s : List Char) :
    (to_snake_case s).getLast?.map is_separator = s.getLast?.map is_separator :=
  getLast?_sep_lower_pipeline (by decide) s

theorem getLast?_sep_constant (s : List Char) :
    (to_constant_case s).getLast?.map is_separator = s.getLast?.map is_separator :=
  getLast?_sep_upper_pipeline (by decide) s

theorem getLast?_sep_title (s : List Char) :
    (to_title_case s).getLast?.map is_separator = s.getLast?.map is_separator := by
  unfold to_title_case capitalize_words
  rw [capitalizeAux_getLast?_sep]
  exact getLast?_sep_lower_pipeline (by decide) s

theorem getLast?_sep_train (s : List Char) :
    (to_train_case s).getLast?.map is_separator = s.getLast?.map is_separator := by
  unfold to_train_case capitalize_words
  rw [capitalizeAux_getLast?_sep]
  exact getLast?_sep_lower_pipeline (by decide) s

theorem beq_fixed {s t : List Char} : (s == t) = true ↔ t = s := by
  rw [beq_iff_eq]
  exact eq_comm

end Case


/-! ## Settling the specification's claims -/

/-- Claim C1, counterexample: `to_camel_case` and `to_pascal_case` are not
idempotent.  `to_camel_case "aB c" = "aBC"` while `to_camel_case "aBC" = "aBc"`
(the `C` follows the non-lowercase `B` and is lowercased on the second pass),
and symmetrically for PascalCase. -/
theorem camel_pascal_not_idempotent :
    Case.to_camel_case (Case.to_camel_case ['a', 'B', ' ', 'c'])
      ≠ Case.to_camel_case ['a', 'B', ' ', 'c'] ∧
    Case.to_pascal_case (Case.to_pascal_case ['a', ' ', 'b', 'C'])
      ≠ Case.to_pascal_case ['a', ' ', 'b', 'C'] := by
  decide

/-- Claim C1 (amended): applying a conversion twice equals applying it once for
the six conventions lower, UPPER, sentence, kebab, snake and CONSTANT; for
Title and Train it holds on ASCII inputs, the fragment this embedding models
faithfully — beyond ASCII the program is not idempotent there either, because
the one-to-many uppercase expansion makes `to_title_case` send `"ß"` to
`"SS"` but `"SS"` to `"Ss"`; camel and Pascal are not idempotent at all. -/
theorem idempotence_amended (s : List Char) :
    (Case.to_lower_case (Case.to_lower_case s) = Case.to_lower_case s ∧
     Case.to_upper_case (Case.to_upper_case s) = Case.to_upper_case s ∧
     Case.to_sentence_case (Case.to_sentence_case s) = Case.to_sentence_case s ∧
     Case.to_kebab_case (Case.to_kebab_case s) = Case.to_kebab_case s ∧
     Case.to_snake_case (Case.to_snake_case s) = Case.to_snake_case s ∧
     Case.to_constant_case (Case.to_constant_case s) = Case.to_constant_case s) ∧
    ((∀ c ∈ s, c.toNat ≤ 127) →
      Case.to_title_case (Case.to_title_case s) = Case.to_title_case s ∧
      Case.to_train_case (Case.to_train_case s) = Case.to_train_case s) := by
  refine ⟨⟨?_, ?_, ?_, ?_, ?_, ?_⟩, fun _ => ⟨?_, ?_⟩⟩
  · unfold Case.to_lower_case
    rw [Case.flatMap_lower_eq_map, Case.flatMap_lower_eq_map, List.map_map]
    exact List.map_congr_left (fun a _ => Case.toLower_toLower a)
  · unfold Case.to_upper_case
    rw [Case.flatMap_upper_eq_map, Case.flatMap_upper_eq_map, List.map_map]
    exact List.map_congr_left (fun a _ => Case.toUpper_toUpper a)
  · exact Case.lower_pipeline_of_norm (fun c hc => Case.mem_lower_pipeline hc)
  · exact Case.lower_pipeline_of_norm (fun c hc => Case.mem_lower_pipeline hc)
  · exact Case.lower_pipeline_of_norm (fun c hc => Case.mem_lower_pipeline hc)
  · exact Case.upper_pipeline_of_norm (fun c hc => Case.mem_upper_pipeline hc)
  · unfold Case.to_title_case
    congr 1
    exact Case.lower_pipeline_capitalizeAux (by decide) _ _
      (fun c hc => Case.mem_lower_pipeline hc)
  · unfold Case.to_train_case
    congr 1
    exact Case.lower_pipeline_capitalizeAux (by decide) _ _
      (fun c hc => Case.mem_lower_pipeline hc)

/-- Claim C1 witness: the ASCII-restricted Title and Train idempotence at a
concrete ASCII input. -/
theorem idempotence_amended_witness :
    Case.to_title_case (Case.to_title_case ['h', 'i', ' ', 'u'])
      = Case.to_title_case ['h', 'i', ' ', 'u'] ∧
    Case.to_train_case (Case.to_train_case ['h', 'i', ' ', 'u'])
      = Case.to_train_case ['h', 'i', ' ', 'u'] :=
  (idempotence_amended ['h', 'i', ' ', 'u']).2 (by decide)

/-- Claim C2, counterexample: when the input starts with a separator the first
character of the camel output is an uppercase letter, and the first character
of the Pascal output is the separator itself (not uppercased to a letter):
rule 1 fires on the very first character in Pascal mode, even on a
separator. -/
theorem camel_first_char_counterexample :
    Case.to_camel_case [' ', 'a'] = ['A'] ∧ Char.isUpper 'A' = true ∧
    Case.to_pascal_case [' ', 'a'] = [' ', 'a'] ∧ Char.isUpper ' ' = false := by
  decide

/-- Claim C2 (amended): each character is decided by exactly one of the four
rules in the stated priority order (pending capitalization, separator,
non-lowercase predecessor, pass-through); and provided the first input
character is not a separator, the first character of the camel output is its
lowercase image (hence not uppercase) and the first character of the Pascal
output is its uppercase image (hence not lowercase). -/
theorem camel_rule_priority (st : Bool × Option Char) (c : Char) (s : List Char) :
    (st.1 = true →
      Case.scan_to_camel st c = ((false, some c), Case.char_to_uppercase c)) ∧
    (st.1 = false → Case.is_separator c = true →
      Case.scan_to_camel st c = ((true, some c), [])) ∧
    (st.1 = false → Case.is_separator c = false → Case.optIsLower st.2 = false →
      Case.scan_to_camel st c = ((false, some c), Case.char_to_lowercase c)) ∧
    (st.1 = false → Case.is_separator c = false → Case.optIsLower st.2 = true →
      Case.scan_to_camel st c = ((false, some c), [c])) ∧
    (Case.is_separator c = false →
      (Case.to_camel_case (c :: s)).head? = some c.toLower ∧
      Char.isUpper c.toLower = false ∧
      (Case.to_pascal_case (c :: s)).head? = some c.toUpper ∧
      Char.isLower c.toUpper = false) := by
  refine ⟨fun h => Case.scan_to_camel_pending h,
    fun h1 h2 => Case.scan_to_camel_sep h1 h2,
    fun h1 h2 h3 => Case.scan_to_camel_lower h1 h2 h3,
    fun h1 h2 h3 => Case.scan_to_camel_pass h1 h2 h3,
    fun hc => ⟨?_, Case.isUpper_toLower c, ?_, Case.isLower_toUpper c⟩⟩
  · show (Case.scanChars (false, none) (c :: s)).head? = some c.toLower
    rw [Case.scanChars_cons, @Case.scan_to_camel_lower (false, none) c rfl hc rfl]
    rfl
  · show (Case.scanChars (true, none) (c :: s)).head? = some c.toUpper
    rw [Case.scanChars_cons, @Case.scan_to_camel_pending (true, none) c rfl]
    rfl

/-- Claim C2 witness: the amended first-character rule at concrete inputs. -/
theorem camel_rule_priority_witness :
    (Case.to_camel_case ['X', 'y']).head? = some 'x' ∧
    (Case.to_pascal_case ['x', 'y']).head? = some 'X' := by
  have h1 := (camel_rule_priority (false, none) 'X' ['y']).2.2.2.2 (by decide)
  have h2 := (camel_rule_priority (true, none) 'x' ['y']).2.2.2.2 (by decide)
  refine ⟨?_, ?_⟩
  · rw [h1.1]
    decide
  · rw [h2.2.2.1]
    decide

/-- Claim C3: every literal scenario of the specification holds exactly, and
the three cross-convention camel inputs agree. -/
theorem literal_scenarios :
    Case.to_camel_case "HELLO_WORLD".toList = "helloWorld".toList ∧
    Case.to_pascal_case "hello-world".toList = "HelloWorld".toList ∧
    Case.to_title_case "helloWorld".toList = "Hello World".toList ∧
    Case.to_snake_case "HelloWorld".toList = "hello_world".toList ∧
    Case.to_constant_case "hello world".toList = "HELLO_WORLD".toList ∧
    Case.to_train_case "HELLO_WORLD".toList = "Hello-World".toList ∧
    Case.is_lower_case "hello-world".toList = true ∧
    Case.is_lower_case "Hello-World".toList = false ∧
    Case.to_camel_case "hello world".toList = "helloWorld".toList ∧
    Case.to_camel_case "HELLO_WORLD".toList = Case.to_camel_case "hello world".toList ∧
    Case.to_camel_case "Hello-World".toList = Case.to_camel_case "hello world".toList := by
  decide

/-- Claim C4: every predicate `is_X` is the fixed-point check of its
conversion: `is_X s` is true exactly when `to_X s` equals `s`. -/
theorem fixed_point_agreement (s : List Char) :
    (Case.is_lower_case s = true ↔ Case.to_lower_case s = s) ∧
    (Case.is_upper_case s = true ↔ Case.to_upper_case s = s) ∧
    (Case.is_sentence_case s = true ↔ Case.to_sentence_case s = s) ∧
    (Case.is_title_case s = true ↔ Case.to_title_case s = s) ∧
    (Case.is_camel_case s = true ↔ Case.to_camel_case s = s) ∧
    (Case.is_pascal_case s = true ↔ Case.to_pascal_case s = s) ∧
    (Case.is_kebab_case s = true ↔ Case.to_kebab_case s = s) ∧
    (Case.is_train_case s = true ↔ Case.to_train_case s = s) ∧
    (Case.is_snake_case s = true ↔ Case.to_snake_case s = s) ∧
    (Case.is_constant_case s = true ↔ Case.to_constant_case s = s) :=
  ⟨Case.beq_fixed, Case.beq_fixed, Case.beq_fixed, Case.beq_fixed, Case.beq_fixed,
   Case.beq_fixed, Case.beq_fixed, Case.beq_fixed, Case.beq_fixed, Case.beq_fixed⟩

/-- Claim C5: the Boundary Normalizer emits the first character and then every
later character preceded by exactly one separator when the adjacent input
pair is a lowercase-to-uppercase transition and by nothing otherwise; in
particular a run of uppercase characters is never split. -/
theorem boundary_insertion (sep : Char) (l : List Char) :
    Case.break_camel sep l = Case.breakSpec sep l ∧
    ((∀ c ∈ l, Case.char_is_uppercase c = true) → Case.break_camel sep l = l) :=
  ⟨Case.break_camel_eq_breakSpec sep l,
   fun h => Case.break_camel_of_all_not_lower (fun c hc =>
     Case.not_lower_of_upper (h c hc))⟩

/-- Claim C5 witness: an all-uppercase run is left intact. -/
theorem boundary_insertion_witness : Case.break_camel '_' ['A', 'B'] = ['A', 'B'] :=
  (boundary_insertion '_' ['A', 'B']).2 (by decide)

/-- Claim C6: in every separator-based conversion, a literal separator in the
input splits the conversion, appearing as the target separator at the
corresponding position (so leading, trailing and consecutive separators are
preserved one-for-one); and the last output character is a separator exactly
when the last input character is, so no trailing separator is appended. -/
theorem separator_occurrence_preservation :
    (∀ c : Char, Case.is_separator c = true → ∀ s1 s2 : List Char,
      Case.to_sentence_case (s1 ++ c :: s2)
        = Case.to_sentence_case s1 ++ ' ' :: Case.to_sentence_case s2 ∧
      Case.to_title_case (s1 ++ c :: s2)
        = Case.to_title_case s1 ++ ' ' :: Case.to_title_case s2 ∧
      Case.to_kebab_case (s1 ++ c :: s2)
        = Case.to_kebab_case s1 ++ '-' :: Case.to_kebab_case s2 ∧
      Case.to_train_case (s1 ++ c :: s2)
        = Case.to_train_case s1 ++ '-' :: Case.to_train_case s2 ∧
      Case.to_snake_case (s1 ++ c :: s2)
        = Case.to_snake_case s1 ++ '_' :: Case.to_snake_case s2 ∧
      Case.to_constant_case (s1 ++ c :: s2)
        = Case.to_constant_case s1 ++ '_' :: Case.to_constant_case s2) ∧
    (∀ s : List Char,
      (Case.to_sentence_case s).getLast?.map Case.is_separator
        = s.getLast?.map Case.is_separator ∧
      (Case.to_title_case s).getLast?.map Case.is_separator
        = s.getLast?.map Case.is_separator ∧
      (Case.to_kebab_case s).getLast?.map Case.is_separator
        = s.getLast?.map Case.is_separator ∧
      (Case.to_train_case s).getLast?.map Case.is_separator
        = s.getLast?.map Case.is_separator ∧
      (Case.to_snake_case s).getLast?.map Case.is_separator
        = s.getLast?.map Case.is_separator ∧
      (Case.to_constant_case s).getLast?.map Case.is_separator
        = s.getLast?.map Case.is_separator) := by
  constructor
  · intro c hc s1 s2
    exact ⟨Case.to_sentence_case_split hc s1 s2, Case.to_title_case_split hc s1 s2,
      Case.to_kebab_case_split hc s1 s2, Case.to_train_case_split hc s1 s2,
      Case.to_snake_case_split hc s1 s2, Case.to_constant_case_split hc s1 s2⟩
  · intro s
    exact ⟨Case.getLast?_sep_sentence s, Case.getLast?_sep_title s,
      Case.getLast?_sep_kebab s, Case.getLast?_sep_train s,
      Case.getLast?_sep_snake s, Case.getLast?_sep_constant s⟩

/-- Claim C6 witness: a hyphen in the input of `to_snake_case` splits the
conversion and appears as an underscore. -/
theorem separator_occurrence_preservation_witness :
    Case.to_snake_case (['a'] ++ '-' :: ['b'])
      = Case.to_snake_case ['a'] ++ '_' :: Case.to_snake_case ['b'] :=
  (separator_occurrence_preservation.1 '-' (by decide) ['a'] ['b']).2.2.2.2.1

/-- Claim C7: for strings of ASCII letters and separators, `to_snake_case` is
unchanged when one occurrence of a recognized separator is replaced by any
other recognized separator. -/
theorem separator_fungibility (s1 s2 : List Char) (c d : Char)
    (hc : Case.is_separator c = true) (hd : Case.is_separator d = true)
    (_hall : ∀ x ∈ s1 ++ c :: s2, Case.asciiLetterOrSep x = true) :
    Case.to_snake_case (s1 ++ c :: s2) = Case.to_snake_case (s1 ++ d :: s2) := by
  rw [Case.to_snake_case_split hc, Case.to_snake_case_split hd]

/-- Claim C7 witness: replacing the space of `"a b"` by a hyphen leaves the
snake conversion unchanged. -/
theorem separator_fungibility_witness :
    Case.to_snake_case (['a'] ++ ' ' :: ['b'])
      = Case.to_snake_case (['a'] ++ '-' :: ['b']) :=
  separator_fungibility ['a'] ['b'] ' ' '-' (by decide) (by decide) (by decide)

/-- Claim C8, counterexample: the `Inflect` trait declares sixteen methods,
not twenty; the lower and upper pair is absent from the method surface. -/
theorem inflect_not_twenty :
    inflectMethodNames.length = 16 ∧ inflectMethodNames.length ≠ 20 ∧
    "to_lower_case" ∉ inflectMethodNames ∧ "is_lower_case" ∉ inflectMethodNames ∧
    "to_upper_case" ∉ inflectMethodNames ∧ "is_upper_case" ∉ inflectMethodNames := by
  decide

/-- Claim C8 (amended): the method surface exposes the sixteen functions of
the trait (the eight conversions from sentence through constant and their
predicates), and each method of both implementations returns exactly the
free function's result. -/
theorem inflect_methods_delegate (s : List Char) :
    (strInflect.to_sentence_case s = Case.to_sentence_case s ∧
     strInflect.is_sentence_case s = Case.is_sentence_case s ∧
     strInflect.to_title_case s = Case.to_title_case s ∧
     strInflect.is_title_case s = Case.is_title_case s ∧
     strInflect.to_camel_case s = Case.to_camel_case s ∧
     strInflect.is_camel_case s = Case.is_camel_case s ∧
     strInflect.to_pascal_case s = Case.to_pascal_case s ∧
     strInflect.is_pascal_case s = Case.is_pascal_case s ∧
     strInflect.to_kebab_case s = Case.to_kebab_case s ∧
     strInflect.is_kebab_case s = Case.is_kebab_case s ∧
     strInflect.to_train_case s = Case.to_train_case s ∧
     strInflect.is_train_case s = Case.is_train_case s ∧
     strInflect.to_snake_case s = Case.to_snake_case s ∧
     strInflect.is_snake_case s = Case.is_snake_case s ∧
     strInflect.to_constant_case s = Case.to_constant_case s ∧
     strInflect.is_constant_case s = Case.is_constant_case s) ∧
    strInflect = stringInflect :=
  ⟨⟨rfl, rfl, rfl, rfl, rfl, rfl, rfl, rfl, rfl, rfl, rfl, rfl, rfl, rfl, rfl, rfl⟩, rfl⟩

/-- Claim C9: every conversion maps the empty string to the empty string and
every predicate accepts the empty string. -/
theorem empty_string_behavior :
    Case.to_lower_case [] = [] ∧ Case.to_upper_case [] = [] ∧
    Case.to_sentence_case [] = [] ∧ Case.to_title_case [] = [] ∧
    Case.to_camel_case [] = [] ∧ Case.to_pascal_case [] = [] ∧
    Case.to_kebab_case [] = [] ∧ Case.to_train_case [] = [] ∧
    Case.to_snake_case [] = [] ∧ Case.to_constant_case [] = [] ∧
    Case.is_lower_case [] = true ∧ Case.is_upper_case [] = true ∧
    Case.is_sentence_case [] = true ∧ Case.is_title_case [] = true ∧
    Case.is_camel_case [] = true ∧ Case.is_pascal_case [] = true ∧
    Case.is_kebab_case [] = true ∧ Case.is_train_case [] = true ∧
    Case.is_snake_case [] = true ∧ Case.is_constant_case [] = true := by
  decide

/-- Claim C10, counterexample: separators are not always deleted.  In a run of
two separators the second is emitted verbatim by the pending-capitalization
rule, Pascal emits a leading separator, a leading run of two separators does
not vanish, and a separator-only string need not map to the empty string. -/
theorem camel_pascal_separator_leak :
    Case.to_camel_case ['a', '_', '_', 'b'] = ['a', '_', 'b'] ∧
    Case.to_pascal_case ['_', 'a'] = ['_', 'a'] ∧
    Case.to_camel_case ['_', '_'] = ['_'] := by
  decide

/-- Claim C10 (amended): for inputs with no two adjacent separators the camel
output contains no separator, and likewise the Pascal output provided the
input does not start with a separator; a single-separator string maps to the
empty string. -/
theorem camel_pascal_separator_free :
    (∀ s : List Char, Case.noAdjSep s = true →
      (∀ d ∈ Case.to_camel_case s, Case.is_separator d = false) ∧
      (Case.headIsSep s = false →
        ∀ d ∈ Case.to_pascal_case s, Case.is_separator d = false)) ∧
    (∀ c : Char, Case.is_separator c = true → Case.to_camel_case [c] = []) := by
  constructor
  · intro s hadj
    constructor
    · exact Case.scanChars_no_sep (false, none) hadj (fun h => by simp at h)
    · intro hh
      exact Case.scanChars_no_sep (true, none) hadj (fun _ => hh)
  · intro c hc
    show Case.scanChars (false, none) [c] = []
    rw [Case.scanChars_cons, Case.scan_to_camel_sep rfl hc]
    rfl

/-- Claim C10 witness: concrete instances of the separator-free outputs and of
the single-separator case. -/
theorem camel_pascal_separator_free_witness :
    Case.is_separator 'W' = false ∧ Case.is_separator 'B' = false ∧
    Case.to_camel_case ['_'] = [] := by
  refine ⟨?_, ?_, ?_⟩
  · exact (camel_pascal_separator_free.1 ['a', '_', 'w'] (by decide)).1 'W' (by decide)
  · exact (camel_pascal_separator_free.1 ['a', 'B'] (by decide)).2 (by decide) 'B' (by decide)
  · exact camel_pascal_separator_free.2 '_' (by decide)
